import Mathlib

/-!
Shallow embedding of the write-buffering/batch-flush subsystem of
titpetric/microservice (package `stats`): the sharded in-memory queue
(`src/server/stats/queue.go`), the background `Flusher`
(`src/unnamed/part_006`) and the server shutdown hook
(`src/unnamed/part_008`).

Machine integers are modelled as `Nat` with explicit `% 2^32` where the Go
code uses `uint32` wraparound (the `atomic.Uint32` queue index).  Pointers
to `Incoming` are modelled by values; the mutex-protected mutable queue is
modelled by explicit state passing, where each Go critical section (lock …
unlock) is one atomic step.
-/

namespace Microservice

/-- Modulus of Go's `uint32` arithmetic (`atomic.Uint32` wraps at `2^32`). -/
def UINT32_SIZE : Nat := 2 ^ 32

/-- One incoming view event, from `Incoming` in
`src/server/stats/types_gen.go`: tracking ID (`uint64`), property name,
property section (`uint32`), property item ID (`uint32`), remote IP and a
capture timestamp (`*time.Time`, modelled as an optional tick count). -/
structure Incoming where
  ID : Nat
  Property : String
  PropertySection : Nat
  PropertyID : Nat
  RemoteIP : String
  Stamp : Option Nat
deriving Repr, DecidableEq, Inhabited

/-- Field names of the `incoming` table, from `IncomingFields` in
`src/server/stats/types_gen.go`. -/
def IncomingFields : List String :=
  ["id", "property", "property_section", "property_id", "remote_ip", "stamp"]

/-- Queue of pending events, from `Queue` in `src/server/stats/queue.go`.
The `sync.RWMutex` is modelled by treating each locked section as one
atomic step on the `values` field. -/
structure Queue where
  values : List Incoming
deriving Repr, DecidableEq, Inhabited

/-- Constructor `NewQueue` (`src/server/stats/queue.go`): empty slice. -/
def NewQueue : Queue := { values := [] }

/-- Constructor `NewQueues` (`src/server/stats/queue.go`): `size` fresh
queues, one per index of the result slice. -/
def NewQueues (size : Nat) : List Queue := List.replicate size NewQueue

/-- Sentinel error returned by `Flusher.Push` when the flusher is disabled
(`errFlusherDisabled`, used at `src/unnamed/part_006` line 52); Go `error`
values in this subsystem are modelled as `Option FlushError`, `none` being
Go `nil`. -/
inductive FlushError where
  | flusherDisabled
deriving Repr, DecidableEq

/-- Method `Queue.Push` (`src/server/stats/queue.go` lines 29-35): under the
write lock, append the item at the tail and return `nil`. -/
def Queue.Push (p : Queue) (item : Incoming) : Queue × Option FlushError :=
  ({ values := p.values ++ [item] }, none)

/-- Method `Queue.Length` (`src/server/stats/queue.go`): length of the
slice, read under the read lock. -/
def Queue.Length (p : Queue) : Nat := p.values.length

/-- Method `Queue.Clear` (`src/server/stats/queue.go` lines 38-43): under
the write lock, `result, p.values = p.values[:len(p.values)],
p.values[len(p.values):]`; returns the drained prefix and the emptied
queue. -/
def Queue.Clear (p : Queue) : List Incoming × Queue :=
  (p.values.take p.values.length, { values := p.values.drop p.values.length })

/-- Sequence of `Queue.Push` calls folded over a queue (each call is one
atomic critical section). -/
def Queue.pushList (p : Queue) (items : List Incoming) : Queue :=
  items.foldl (fun q e => (q.Push e).1) p

/-- Interleaved execution of the two-phase `Queue.Clear` variant
(`src/server/stats/queue.go` lines 88-96) with concurrent `Queue.Push`
calls.  That `Clear` takes two separate critical sections:
step 1 reads `length := p.Length()` under the read lock, step 2 splits
`result, p.values = p.values[:length], p.values[length:]` under the write
lock.  Concurrent pushes are atomic, so an arbitrary interleaving is a
split of the pushed items into `A` (complete before step 1), `B` (between
step 1 and step 2) and `C` (after step 2).  Returns the drained batch and
the queue once all pushes have completed. -/
def clearConcurrent (p : Queue) (A B C : List Incoming) :
    List Incoming × Queue :=
  let q1 := p.pushList A
  let length := q1.Length
  let q2 := q1.pushList B
  let result := q2.values.take length
  let q3 : Queue := { values := q2.values.drop length }
  (result, q3.pushList C)

/-- Background flush job, from `Flusher` in `src/unnamed/part_006`:
an enabled flag (`atomic.Bool`), the rotating queue index
(`atomic.Uint32`, wraps at `2^32`), the masking value and the queue set.
The embedded completion context and the database handle live in the run
loop model below. -/
structure Flusher where
  enabled : Bool
  queueIndex : Nat
  queueMask : Nat
  queues : List Queue
deriving Repr, DecidableEq

/-- Queue count fixed by `NewFlusher` (`src/unnamed/part_006` line 33):
`queueSize := 1 << 4`. -/
def queueSize : Nat := 1 <<< 4

/-- Constructor `NewFlusher` (`src/unnamed/part_006` lines 32-44): enabled,
index `0`, mask `queueSize - 1`, `queueSize` fresh queues. -/
def NewFlusher : Flusher :=
  { enabled := true
    queueIndex := 0
    queueMask := (queueSize - 1) % UINT32_SIZE
    queues := NewQueues queueSize }

/-- Method `Flusher.Push` (`src/unnamed/part_006` lines 47-53): if enabled,
`index := job.queueIndex.Inc() & job.queueMask` (the atomic `Inc` returns
the new, wrapped value) and the item is pushed onto `job.queues[index]`;
otherwise return `errFlusherDisabled`.  A Go index-out-of-range panic is
modelled as `none`. -/
def Flusher.Push (job : Flusher) (item : Incoming) :
    Option (Flusher × Option FlushError) :=
  if job.enabled then
    let newIndex := (job.queueIndex + 1) % UINT32_SIZE
    let index := newIndex &&& job.queueMask
    match job.queues[index]? with
    | some q =>
        some ({ job with
                  queueIndex := newIndex
                  queues := job.queues.set index (q.Push item).1 },
              (q.Push item).2)
    | none => none
  else
    some (job, some FlushError.flusherDisabled)

/-- Sequence of `Flusher.Push` calls; stops with `none` if any push panics
or returns an error. -/
def Flusher.pushAll (job : Flusher) : List Incoming → Option Flusher
  | [] => some job
  | e :: es =>
    match job.Push e with
    | some (job', none) => job'.pushAll es
    | _ => none

/-- Chunking loop of `Flusher.flush` (`src/unnamed/part_006` lines 92-101):
`for len(rows) > 0 { batchInsertSize = 1000; if len(rows) <
batchInsertSize { batchInsertSize = len(rows) }; ...; rows =
rows[batchInsertSize:] }`.  The fuel argument bounds the iteration count;
`chunkRows` supplies enough fuel. -/
def chunkLoop : Nat → List Incoming → List (List Incoming)
  | 0, _ => []
  | fuel + 1, rows =>
    if rows.length > 0 then
      let batchInsertSize := if rows.length < 1000 then rows.length else 1000
      rows.take batchInsertSize :: chunkLoop fuel (rows.drop batchInsertSize)
    else []

/-- Chunks produced by the flush loop for one drained batch. -/
def chunkRows (rows : List Incoming) : List (List Incoming) :=
  chunkLoop rows.length rows

/-- Behaviour of the database handle during one flush pass: for queue index
`k`, chunk number `c` and the chunk's rows, whether `db.NamedExec` succeeds
(`true`) or returns an error (`false`).  Any subset of the chunk inserts
may fail. -/
def DBBehaviour : Type := Nat → Nat → List Incoming → Bool

/-- Inner loop of `Flusher.flush` for one drained queue
(`src/unnamed/part_006` lines 92-101): chunk `rows`, call
`job.db.NamedExec(query, rows[:batchInsertSize])` per chunk, log (and
otherwise ignore) a failure, continue with the remaining rows.  Records
each attempted insert together with its outcome. -/
def flushQueueLoop (db : DBBehaviour) (k : Nat) :
    Nat → Nat → List Incoming → List (List Incoming × Bool)
  | _, 0, _ => []
  | c, fuel + 1, rows =>
    if rows.length > 0 then
      let batchInsertSize := if rows.length < 1000 then rows.length else 1000
      (rows.take batchInsertSize, db k c (rows.take batchInsertSize)) ::
        flushQueueLoop db k (c + 1) fuel (rows.drop batchInsertSize)
    else []

/-- Outer loop of `Flusher.flush` (`src/unnamed/part_006` lines 87-102):
`for k, queue := range job.queues { rows := queue.Clear(); ... }`.
Returns the updated queues and the insert calls in order. -/
def flushQueues (db : DBBehaviour) :
    Nat → List Queue → List Queue × List (List Incoming × Bool)
  | _, [] => ([], [])
  | k, q :: rest =>
    let drained := q.Clear
    let calls := flushQueueLoop db k 0 drained.1.length drained.1
    let next := flushQueues db (k + 1) rest
    (drained.2 :: next.1, calls ++ next.2)

/-- Method `Flusher.flush` (`src/unnamed/part_006` lines 78-104): drain
every queue in order, issue one multi-row insert per chunk of at most 1000
rows, log failures, return nothing to any caller.  The result records the
updated flusher state and the sequence of attempted inserts with their
outcomes. -/
def Flusher.flush (job : Flusher) (db : DBBehaviour) :
    Flusher × List (List Incoming × Bool) :=
  let res := flushQueues db 0 job.queues
  ({ job with queues := res.1 }, res.2)

/-- Events observed by the `select` in the run loop
(`src/unnamed/part_006` lines 62-73): a ticker tick or the context
cancellation. -/
inductive Signal where
  | tick
  | cancel
deriving Repr, DecidableEq

/-- State of the background goroutine `Flusher.run`
(`src/unnamed/part_006` lines 55-76) together with its flusher: `stopped`
records that the loop has exited (`break` reached), `done` that the
deferred `job.finish()` has run, closing the `Done` channel that
`Server.Shutdown` (`src/unnamed/part_008` lines 19-21) waits on. -/
structure RunState where
  job : Flusher
  stopped : Bool
  done : Bool
deriving Repr, DecidableEq

/-- One iteration of the run loop (`src/unnamed/part_006` lines 62-73):
on a tick, `job.flush()` and continue; on cancellation,
`job.enabled.Store(false)`, one final `job.flush()`, leave the loop and run
the deferred `job.finish()`.  Once stopped, further signals are no-ops.
Returns the insert calls attempted during the step. -/
def runStep (db : DBBehaviour) (s : RunState) (sig : Signal) :
    RunState × List (List Incoming × Bool) :=
  if s.stopped then (s, [])
  else
    match sig with
    | .tick =>
      let res := s.job.flush db
      ({ s with job := res.1 }, res.2)
    | .cancel =>
      let disabled : Flusher := { s.job with enabled := false }
      let res := disabled.flush db
      ({ job := res.1, stopped := true, done := true }, res.2)

/-- Run-loop execution over a sequence of observed signals, accumulating
the attempted insert calls. -/
def runTrace (db : DBBehaviour) (s : RunState) :
    List Signal → RunState × List (List Incoming × Bool)
  | [] => (s, [])
  | sig :: rest =>
    let step := runStep db s sig
    let next := runTrace db step.1 rest
    (next.1, step.2 ++ next.2)

/-- Sum of `Queue.Length` across all queues of a flusher's queue set. -/
def sumLengths (qs : List Queue) : Nat := (qs.map Queue.Length).sum

/-- Number of hits on shard `j` among the `K` consecutive counter values
`a, a+1, ..., a+K-1` reduced modulo `M` — the shard-selection pattern of
round-robin pushes. -/
def cntMod (M j : Nat) : Nat → Nat → Nat
  | _, 0 => 0
  | a, K + 1 => (if a % M = j then 1 else 0) + cntMod M j (a + 1) K

/-- Test fixture for the chunking property of the spec: a running flusher
whose single shard holds 2500 buffered events. -/
def shard2500Flusher : Flusher :=
  { enabled := true
    queueIndex := 0
    queueMask := 0
    queues := [{ values := List.replicate 2500 default }] }

/-! ### Basic queue lemmas -/

/-- Folding `Queue.Push` appends the pushed items at the tail. -/
lemma Queue.pushList_values (p : Queue) (items : List Incoming) :
    (p.pushList items).values = p.values ++ items := by
  induction items generalizing p with
  | nil => simp [Queue.pushList]
  | cons e es ih =>
    have h := ih (p.Push e).1
    simp only [Queue.pushList, List.foldl_cons] at h ⊢
    rw [h]
    simp [Queue.Push]

/-- Claim C2: Drain returns exactly the events pushed since the previous `Clear`, in
append (FIFO) order, leaves the shard with `Length() = 0`, and the returned
batch concatenated with the remaining contents equals the contents before
the call. -/
theorem c2_clear_fifo_empties_nothing_lost (p : Queue) (items : List Incoming) :
    p.Clear.1 = p.values ∧
    p.Clear.2.Length = 0 ∧
    p.Clear.1 ++ p.Clear.2.values = p.values ∧
    (p.Clear.2.pushList items).Clear.1 = items := by
  refine ⟨?_, ?_, ?_, ?_⟩
  · simp [Queue.Clear]
  · simp [Queue.Clear, Queue.Length]
  · simp [Queue.Clear]
  · simp [Queue.Clear, Queue.pushList_values]

/-- Claim C9: Two-phase `Clear` (read length, then split) interleaved with concurrent
pushes: for every interleaving — pushes `A` before the length read, `B`
between the length read and the split, `C` after the split — the drained
batch is exactly the prior contents plus `A`, the shard afterwards holds
exactly `B ++ C`, and batch ++ remainder accounts for every event exactly
once. -/
theorem c9_clear_concurrent_no_loss_no_dup (p : Queue) (A B C : List Incoming) :
    (clearConcurrent p A B C).1 = p.values ++ A ∧
    (clearConcurrent p A B C).2.values = B ++ C ∧
    (clearConcurrent p A B C).1 ++ (clearConcurrent p A B C).2.values =
      p.values ++ A ++ B ++ C := by
  have h1 : (clearConcurrent p A B C).1 = p.values ++ A := by
    simp [clearConcurrent, Queue.pushList_values, Queue.Length,
      List.take_append]
  have h2 : (clearConcurrent p A B C).2.values = B ++ C := by
    simp [clearConcurrent, Queue.pushList_values, Queue.Length,
      List.drop_append, List.append_assoc]
  exact ⟨h1, h2, by rw [h1, h2]; simp [List.append_assoc]⟩

/-! ### Flusher push lemmas -/

/-- When the flusher is enabled and the mask is below the queue count, a
push lands on queue `index = ((queueIndex + 1) % 2^32) &&& queueMask`,
returns no error, and only changes that queue (appending the item) and the
counter. -/
lemma Flusher.push_enabled_eq (job : Flusher) (e : Incoming)
    (hen : job.enabled = true) (hm : job.queueMask < job.queues.length) :
    ∃ q, job.queues[((job.queueIndex + 1) % UINT32_SIZE) &&& job.queueMask]? = some q ∧
      job.Push e = some
        ({ job with
            queueIndex := (job.queueIndex + 1) % UINT32_SIZE
            queues := job.queues.set
              (((job.queueIndex + 1) % UINT32_SIZE) &&& job.queueMask)
              (q.Push e).1 }, none) := by
  have hidx : ((job.queueIndex + 1) % UINT32_SIZE) &&& job.queueMask <
      job.queues.length :=
    Nat.lt_of_le_of_lt Nat.and_le_right hm
  have hq : job.queues[((job.queueIndex + 1) % UINT32_SIZE) &&& job.queueMask]? =
      some (job.queues[((job.queueIndex + 1) % UINT32_SIZE) &&& job.queueMask]) :=
    List.getElem?_eq_getElem hidx
  refine ⟨_, hq, ?_⟩
  simp only [Flusher.Push, hen, if_true, hq, Queue.Push]

/-- Setting a present queue to its pushed version raises the total length
by exactly one. -/
lemma sumLengths_set_push (qs : List Queue) (idx : Nat) (q : Queue)
    (e : Incoming) (h : qs[idx]? = some q) :
    sumLengths (qs.set idx (q.Push e).1) = sumLengths qs + 1 := by
  induction qs generalizing idx with
  | nil => simp at h
  | cons hd tl ih =>
    cases idx with
    | zero =>
      simp only [List.getElem?_cons_zero, Option.some.injEq] at h
      subst h
      simp [sumLengths, Queue.Push, Queue.Length]
      omega
    | succ n =>
      simp only [List.getElem?_cons_succ] at h
      have := ih n h
      simp only [List.set_cons_succ, sumLengths, List.map_cons, List.sum_cons] at this ⊢
      omega

/-- While enabled with a valid mask, `pushAll` succeeds, preserves the
enabled flag, mask and queue count, and raises the total buffered length by
the number of pushed events. -/
lemma Flusher.pushAll_sum (events : List Incoming) :
    ∀ job : Flusher, job.enabled = true → job.queueMask < job.queues.length →
      ∃ job', job.pushAll events = some job' ∧
        job'.enabled = true ∧
        job'.queueMask = job.queueMask ∧
        job'.queues.length = job.queues.length ∧
        sumLengths job'.queues = sumLengths job.queues + events.length := by
  induction events with
  | nil => intro job hen hm; exact ⟨job, rfl, hen, rfl, rfl, by simp⟩
  | cons e es ih =>
    intro job hen hm
    obtain ⟨q, hq, hpush⟩ := Flusher.push_enabled_eq job e hen hm
    set job1 : Flusher :=
      { job with
          queueIndex := (job.queueIndex + 1) % UINT32_SIZE
          queues := job.queues.set
            (((job.queueIndex + 1) % UINT32_SIZE) &&& job.queueMask)
            (q.Push e).1 } with hjob1
    have hlen1 : job1.queues.length = job.queues.length := by
      simp [hjob1]
    have hsum1 : sumLengths job1.queues = sumLengths job.queues + 1 :=
      sumLengths_set_push job.queues _ q e hq
    obtain ⟨job', hall, hen', hmask', hlen', hsum'⟩ :=
      ih job1 hen (by rw [hlen1]; exact hm)
    refine ⟨job', ?_, hen', hmask', by rw [hlen', hlen1], ?_⟩
    · simp only [Flusher.pushAll, hpush]
      exact hall
    · rw [hsum', hsum1, List.length_cons]
      omega

/-- Claim C1: Shard append never fails and no event is lost before a drain:
`Queue.Push` always returns `nil` and raises that shard's `Length()` by
exactly one, and any sequence of `N` pushes on a fresh (running) flusher
with no intervening drain leaves the lengths summed across all shards equal
to `N`. -/
theorem c1_push_never_fails_sum_lengths :
    (∀ (q : Queue) (item : Incoming),
      (q.Push item).2 = none ∧ (q.Push item).1.Length = q.Length + 1) ∧
    ∀ events : List Incoming, ∃ job',
      NewFlusher.pushAll events = some job' ∧
      sumLengths job'.queues = events.length := by
  constructor
  · intro q item
    exact ⟨rfl, by simp [Queue.Push, Queue.Length]⟩
  · intro events
    obtain ⟨job', hall, -, -, -, hsum⟩ :=
      Flusher.pushAll_sum events NewFlusher rfl (by decide)
    refine ⟨job', hall, ?_⟩
    rw [hsum]
    have : sumLengths NewFlusher.queues = 0 := by decide
    omega

/-- Claim C4: `Flusher.Push` returns no error if and only if the flusher is enabled:
while enabled the event is appended to the selected shard and `nil` is
returned; once disabled the sentinel `errFlusherDisabled` is returned and
the flusher state — every shard included — is untouched. -/
theorem c4_push_error_iff_disabled (job : Flusher) (item : Incoming)
    (hm : job.queueMask < job.queues.length) :
    ((∃ job', job.Push item = some (job', none)) ↔ job.enabled = true) ∧
    (job.enabled = false →
      job.Push item = some (job, some FlushError.flusherDisabled)) := by
  constructor
  · constructor
    · rintro ⟨job', hjob'⟩
      by_contra hen
      have hen' : job.enabled = false := by
        cases h : job.enabled with
        | true => exact absurd h hen
        | false => rfl
      simp [Flusher.Push, hen'] at hjob'
    · intro hen
      obtain ⟨q, -, hpush⟩ := Flusher.push_enabled_eq job item hen hm
      exact ⟨_, hpush⟩
  · intro hen
    simp [Flusher.Push, hen]

/-- Closed witness for `c4_push_error_iff_disabled` at the freshly
constructed flusher. -/
theorem c4_push_error_iff_disabled_witness :
    ((∃ job', NewFlusher.Push default = some (job', none)) ↔
      NewFlusher.enabled = true) ∧
    (NewFlusher.enabled = false →
      NewFlusher.Push default = some (NewFlusher, some FlushError.flusherDisabled)) :=
  c4_push_error_iff_disabled NewFlusher default (by decide)

/-- Claim C8: Off-by-one in index assignment: the counter is incremented before use,
so the very first push on a fresh flusher selects the shard at index `1`
(the new counter value is `1`), and shard `0` is left untouched. -/
theorem c8_first_push_selects_shard_one (item : Incoming) :
    ∃ job', NewFlusher.Push item = some (job', none) ∧
      job'.queueIndex = 1 ∧
      job'.queues[1]? = some { values := [item] } ∧
      job'.queues[0]? = some NewQueue := by
  exact ⟨_, rfl, rfl, rfl, rfl⟩

/-- Claim C10: Shard indexing is always in bounds: `NewFlusher` creates exactly 16
queues with mask 15, and for any flusher with those parameters the masked
index is strictly below the queue count for every counter value — including
after `uint32` wraparound — so `Push` never faults on the queue access. -/
theorem c10_shard_index_in_bounds (job : Flusher)
    (hmask : job.queueMask = NewFlusher.queueMask)
    (hlen : job.queues.length = NewFlusher.queues.length) :
    NewFlusher.queues.length = 16 ∧
    NewFlusher.queueMask = 15 ∧
    (∀ c : Nat, (c % UINT32_SIZE) &&& job.queueMask < job.queues.length) ∧
    (∀ item : Incoming, (job.Push item).isSome = true) := by
  have h16 : NewFlusher.queues.length = 16 := by decide
  have h15 : NewFlusher.queueMask = 15 := by decide
  have hm : job.queueMask < job.queues.length := by
    rw [hmask, hlen, h16, h15]; omega
  refine ⟨h16, h15, ?_, ?_⟩
  · intro c
    exact Nat.lt_of_le_of_lt Nat.and_le_right hm
  · intro item
    cases hen : job.enabled with
    | true =>
      obtain ⟨q, -, hpush⟩ := Flusher.push_enabled_eq job item hen hm
      rw [hpush]; rfl
    | false =>
      simp [Flusher.Push, hen]

/-- Closed witness for `c10_shard_index_in_bounds`: at the fresh flusher,
a wrapped counter value still indexes in bounds and a push does not fault. -/
theorem c10_shard_index_in_bounds_witness :
    ((4294967295 % UINT32_SIZE) &&& NewFlusher.queueMask <
      NewFlusher.queues.length) ∧
    (NewFlusher.Push default).isSome = true :=
  ⟨(c10_shard_index_in_bounds NewFlusher rfl rfl).2.2.1 4294967295,
   (c10_shard_index_in_bounds NewFlusher rfl rfl).2.2.2 default⟩

/-! ### Flush and chunking lemmas -/

/-- With enough fuel, the chunks concatenate back to the original rows. -/
lemma chunkLoop_join (fuel : Nat) :
    ∀ rows : List Incoming, rows.length ≤ fuel →
      (chunkLoop fuel rows).flatten = rows := by
  induction fuel with
  | zero =>
    intro rows h
    have : rows = [] := List.eq_nil_of_length_eq_zero (Nat.le_zero.mp h)
    subst this
    simp [chunkLoop]
  | succ n ih =>
    intro rows h
    by_cases hz : rows.length > 0
    · simp only [chunkLoop, hz, if_true, List.flatten]
      rw [ih (rows.drop (if rows.length < 1000 then rows.length else 1000))
        (by rw [List.length_drop]; split <;> omega)]
      exact List.take_append_drop _ rows
    · have : rows = [] := List.eq_nil_of_length_eq_zero (by omega)
      subst this
      simp [chunkLoop]

/-- Every chunk the loop emits is nonempty and holds at most 1000 rows. -/
lemma chunkLoop_sizes (fuel : Nat) :
    ∀ rows chunk, chunk ∈ chunkLoop fuel rows →
      0 < chunk.length ∧ chunk.length ≤ 1000 := by
  induction fuel with
  | zero => intro rows chunk h; simp [chunkLoop] at h
  | succ n ih =>
    intro rows chunk h
    by_cases hz : rows.length > 0
    · simp only [chunkLoop, hz, if_true, List.mem_cons] at h
      rcases h with h | h
      · subst h
        constructor
        · simp only [List.length_take]
          split <;> omega
        · simp only [List.length_take]
          split <;> omega
      · exact ih _ _ h
    · simp [chunkLoop, hz] at h

/-- The rows of the attempted insert calls are exactly the chunks,
whatever the database behaviour, the queue index and the chunk counter. -/
lemma flushQueueLoop_map_fst (db : DBBehaviour) (k : Nat) (fuel : Nat) :
    ∀ c rows, (flushQueueLoop db k c fuel rows).map Prod.fst =
      chunkLoop fuel rows := by
  induction fuel with
  | zero => intro c rows; simp [flushQueueLoop, chunkLoop]
  | succ n ih =>
    intro c rows
    by_cases hz : rows.length > 0
    · simp only [flushQueueLoop, chunkLoop, hz, if_true, List.map_cons]
      rw [ih]
    · simp [flushQueueLoop, chunkLoop, hz]

/-- Chunking never iterates on an exhausted row list. -/
lemma chunkLoop_nil (fuel : Nat) : chunkLoop fuel [] = [] := by
  cases fuel <;> simp [chunkLoop]

/-- One chunking iteration on at least 1000 identical buffered rows takes a
full chunk of 1000. -/
lemma chunkLoop_replicate_step (fuel n : Nat) (e : Incoming)
    (h : 1000 ≤ n) :
    chunkLoop (fuel + 1) (List.replicate n e) =
      List.replicate 1000 e :: chunkLoop fuel (List.replicate (n - 1000) e) := by
  simp only [chunkLoop, List.length_replicate]
  rw [if_pos (by omega), if_neg (by omega), List.take_replicate,
    List.drop_replicate]
  congr 2
  omega

/-- The last chunking iteration takes whatever is left (fewer than 1000
rows) and stops. -/
lemma chunkLoop_replicate_last (fuel n : Nat) (e : Incoming)
    (h0 : 0 < n) (h : n < 1000) :
    chunkLoop (fuel + 1) (List.replicate n e) = [List.replicate n e] := by
  simp only [chunkLoop, List.length_replicate]
  rw [if_pos (by omega), if_pos h, List.take_replicate, List.drop_replicate]
  rw [Nat.min_self, Nat.sub_self, List.replicate_zero, chunkLoop_nil]

/-- Chunk sizes for a 2500-row batch: 1000, 1000, 500, in order. -/
lemma chunkRows_replicate_2500 (e : Incoming) :
    (chunkRows (List.replicate 2500 e)).map List.length = [1000, 1000, 500] := by
  have h1 : chunkLoop 2500 (List.replicate 2500 e) =
      List.replicate 1000 e :: chunkLoop 2499 (List.replicate 1500 e) :=
    chunkLoop_replicate_step 2499 2500 e (by omega)
  have h2 : chunkLoop 2499 (List.replicate 1500 e) =
      List.replicate 1000 e :: chunkLoop 2498 (List.replicate 500 e) :=
    chunkLoop_replicate_step 2498 1500 e (by omega)
  have h3 : chunkLoop 2498 (List.replicate 500 e) = [List.replicate 500 e] :=
    chunkLoop_replicate_last 2497 500 e (by omega) (by omega)
  rw [chunkRows, List.length_replicate, h1, h2, h3]
  simp only [List.map_cons, List.map_nil, List.length_replicate]

/-- Outer flush loop: the queues all end up drained, and the attempted
insert rows are the concatenation, in queue order, of each queue's chunks —
independently of the database behaviour and of the starting queue index. -/
lemma flushQueues_spec (db : DBBehaviour) (qs : List Queue) :
    ∀ k, (flushQueues db k qs).1 = qs.map (fun q => q.Clear.2) ∧
      (flushQueues db k qs).2.map Prod.fst =
        (qs.map fun q => chunkRows q.values).flatten := by
  induction qs with
  | nil => intro k; simp [flushQueues]
  | cons q rest ih =>
    intro k
    obtain ⟨ih1, ih2⟩ := ih (k + 1)
    constructor
    · show q.Clear.2 :: (flushQueues db (k + 1) rest).1 = _
      rw [ih1, List.map_cons]
    · have hclear : q.Clear.1 = q.values := by simp [Queue.Clear]
      show (flushQueueLoop db k 0 q.Clear.1.length q.Clear.1 ++
        (flushQueues db (k + 1) rest).2).map Prod.fst = _
      rw [List.map_append, flushQueueLoop_map_fst, ih2, hclear,
        List.map_cons, List.flatten_cons, chunkRows]

/-- Claim C3: flush splits every drained batch into consecutive chunks of
at most 1000 rows, one multi-row insert per chunk, in original append
order; in particular a shard holding 2500 buffered events produces exactly
3 insert calls of sizes 1000, 1000, 500, in that order. -/
theorem c3_flush_chunking :
    (∀ rows : List Incoming,
      (chunkRows rows).flatten = rows ∧
      ∀ chunk ∈ chunkRows rows, 0 < chunk.length ∧ chunk.length ≤ 1000) ∧
    (∀ db : DBBehaviour,
      ((shard2500Flusher.flush db).2.map fun call => call.1.length) =
        [1000, 1000, 500]) := by
  constructor
  · intro rows
    exact ⟨chunkLoop_join rows.length rows le_rfl,
      fun chunk h => chunkLoop_sizes rows.length rows chunk h⟩
  · intro db
    have hspec := (flushQueues_spec db shard2500Flusher.queues 0).2
    have hmap : ((shard2500Flusher.flush db).2.map fun call => call.1.length) =
        ((shard2500Flusher.flush db).2.map Prod.fst).map List.length := by
      rw [List.map_map]
      rfl
    rw [hmap]
    have hflush : (shard2500Flusher.flush db).2 =
        (flushQueues db 0 shard2500Flusher.queues).2 := rfl
    rw [hflush, hspec]
    show ((chunkRows (List.replicate 2500 default) ++ []).map List.length) =
      [1000, 1000, 500]
    rw [List.append_nil, chunkRows_replicate_2500]

/-- Claim C6: partial failure isolation — for every behaviour of the
database handle, flush attempts the insert for every chunk of every shard
(the attempted rows are exactly all chunks of all shards, in order), and
the resulting state and attempted calls are identical no matter which
subset of the inserts fails; a failed insert is never surfaced to a caller
and never aborts the pass. -/
theorem c6_flush_partial_failure_isolation (job : Flusher)
    (db db' : DBBehaviour) :
    (job.flush db).2.map Prod.fst =
      (job.queues.map fun q => chunkRows q.values).flatten ∧
    (job.flush db).1 = (job.flush db').1 ∧
    (job.flush db).2.map Prod.fst = (job.flush db').2.map Prod.fst := by
  have h1 := flushQueues_spec db job.queues 0
  have h2 := flushQueues_spec db' job.queues 0
  refine ⟨h1.2, ?_, ?_⟩
  · show ({ job with queues := (flushQueues db 0 job.queues).1 } : Flusher) =
      { job with queues := (flushQueues db' 0 job.queues).1 }
    rw [h1.1, h2.1]
  · show ((flushQueues db 0 job.queues).2).map Prod.fst =
      ((flushQueues db' 0 job.queues).2).map Prod.fst
    rw [h1.2, h2.2]

/-! ### Run loop lemmas -/

/-- Once the loop has exited, further signals change nothing and produce no
insert calls. -/
lemma runTrace_stopped (db : DBBehaviour) (s : RunState)
    (h : s.stopped = true) (trace : List Signal) :
    runTrace db s trace = (s, []) := by
  induction trace with
  | nil => rfl
  | cons sig rest ih =>
    simp only [runTrace, runStep, h, if_true]
    rw [ih]
    rfl

/-- No step of the run loop re-enables a disabled flusher. -/
lemma runStep_preserves_disabled (db : DBBehaviour) (s : RunState)
    (sig : Signal) (h : s.job.enabled = false) :
    (runStep db s sig).1.job.enabled = false := by
  by_cases hs : s.stopped = true
  · simp [runStep, hs, h]
  · have hs' : s.stopped = false := by
      cases hv : s.stopped with
      | true => exact absurd hv hs
      | false => rfl
    cases sig with
    | tick => simp [runStep, hs', Flusher.flush, h]
    | cancel => simp [runStep, hs', Flusher.flush]

/-- Claim C5: once the cancellation signal is observed, the disabled state
is permanent — the cancel step disables the flusher, performs one final
flush of all shards (every queue is empty afterwards and every chunk of
every shard is attempted), exits the loop and signals completion; no step
ever re-enables a disabled flusher, after completion every push returns the
sentinel disabled error, and no further flush step occurs on any subsequent
signal sequence. -/
theorem c5_cancel_is_permanent (db : DBBehaviour) (s : RunState)
    (hstop : s.stopped = false) (trace : List Signal) :
    (runStep db s Signal.cancel).1.job.enabled = false ∧
    (runStep db s Signal.cancel).1.stopped = true ∧
    (runStep db s Signal.cancel).1.done = true ∧
    (runStep db s Signal.cancel).2.map Prod.fst =
      (s.job.queues.map fun q => chunkRows q.values).flatten ∧
    (∀ q ∈ (runStep db s Signal.cancel).1.job.queues, q.Length = 0) ∧
    (∀ sig s', s'.job.enabled = false →
      (runStep db s' sig).1.job.enabled = false) ∧
    runTrace db (runStep db s Signal.cancel).1 trace =
      ((runStep db s Signal.cancel).1, []) ∧
    (∀ item, (runStep db s Signal.cancel).1.job.Push item =
      some ((runStep db s Signal.cancel).1.job, some FlushError.flusherDisabled)) := by
  have hspec := flushQueues_spec db s.job.queues 0
  have hstep : runStep db s Signal.cancel =
      ({ job := { enabled := false, queueIndex := s.job.queueIndex,
                  queueMask := s.job.queueMask,
                  queues := (flushQueues db 0 s.job.queues).1 },
         stopped := true, done := true },
       (flushQueues db 0 s.job.queues).2) := by
    simp only [runStep, hstop, Bool.false_eq_true, if_false, Flusher.flush]
  refine ⟨?_, ?_, ?_, ?_, ?_, ?_, ?_, ?_⟩
  · rw [hstep]
  · rw [hstep]
  · rw [hstep]
  · rw [hstep]
    exact hspec.2
  · rw [hstep]
    intro q hq
    simp only [hspec.1, List.mem_map] at hq
    obtain ⟨q0, -, hq0⟩ := hq
    rw [← hq0]
    simp [Queue.Clear, Queue.Length]
  · exact fun sig s' h => runStep_preserves_disabled db s' sig h
  · apply runTrace_stopped
    rw [hstep]
  · intro item
    rw [hstep]
    simp [Flusher.Push]

/-- Closed witness for `c5_cancel_is_permanent`: a fresh running flusher,
an all-succeeding database, one tick after the cancellation. -/
theorem c5_cancel_is_permanent_witness :
    (runStep (fun _ _ _ => true) { job := NewFlusher, stopped := false, done := false }
      Signal.cancel).1.job.enabled = false ∧
    runTrace (fun _ _ _ => true)
      (runStep (fun _ _ _ => true) { job := NewFlusher, stopped := false, done := false }
        Signal.cancel).1 [Signal.tick] =
      ((runStep (fun _ _ _ => true) { job := NewFlusher, stopped := false, done := false }
        Signal.cancel).1, []) ∧
    (runStep (fun _ _ _ => true) { job := NewFlusher, stopped := false, done := false }
      Signal.cancel).1.job.Push default =
      some ((runStep (fun _ _ _ => true) { job := NewFlusher, stopped := false, done := false }
        Signal.cancel).1.job, some FlushError.flusherDisabled) :=
  ⟨(c5_cancel_is_permanent (fun _ _ _ => true)
      { job := NewFlusher, stopped := false, done := false } rfl [Signal.tick]).1,
   (c5_cancel_is_permanent (fun _ _ _ => true)
      { job := NewFlusher, stopped := false, done := false } rfl [Signal.tick]).2.2.2.2.2.2.1,
   (c5_cancel_is_permanent (fun _ _ _ => true)
      { job := NewFlusher, stopped := false, done := false } rfl [Signal.tick]).2.2.2.2.2.2.2 default⟩

/-! ### Round-robin counting lemmas -/

/-- Equation lemma: an empty window hits no shard. -/
lemma cntMod_zero (M j a : Nat) : cntMod M j a 0 = 0 := rfl

/-- Equation lemma: peel the first counter value off the window. -/
lemma cntMod_succ (M j a K : Nat) :
    cntMod M j a (K + 1) =
      (if a % M = j then 1 else 0) + cntMod M j (a + 1) K := rfl

/-- Splitting a window of consecutive counter values. -/
lemma cntMod_split (M j K1 : Nat) :
    ∀ a K2 : Nat, cntMod M j a (K1 + K2) =
      cntMod M j a K1 + cntMod M j (a + K1) K2 := by
  induction K1 with
  | zero => intro a K2; simp [cntMod_zero]
  | succ n ih =>
    intro a K2
    rw [show n + 1 + K2 = (n + K2) + 1 from by omega, cntMod_succ, cntMod_succ,
      ih (a + 1) K2, show a + 1 + n = a + (n + 1) from by omega]
    omega

/-- The hit count only depends on the start of the window modulo `M`. -/
lemma cntMod_congr (M j : Nat) :
    ∀ K a b : Nat, a ≡ b [MOD M] → cntMod M j a K = cntMod M j b K := by
  intro K
  induction K with
  | zero => intro a b h; rfl
  | succ n ih =>
    intro a b h
    have h' : a % M = b % M := h
    rw [cntMod_succ, cntMod_succ, h', ih (a + 1) (b + 1) (h.add_right 1)]

/-- A window that never hits shard `j` counts zero. -/
lemma cntMod_eq_zero (M j : Nat) :
    ∀ K a : Nat, (∀ i, i < K → (a + i) % M ≠ j) → cntMod M j a K = 0 := by
  intro K
  induction K with
  | zero => intro a h; rfl
  | succ n ih =>
    intro a h
    have h0 : a % M ≠ j := by
      have := h 0 (by omega)
      simpa using this
    have ht : cntMod M j (a + 1) n = 0 := by
      apply ih
      intro i hi
      have := h (i + 1) (by omega)
      rw [show a + (i + 1) = a + 1 + i from by omega] at this
      exact this
    rw [cntMod_succ, if_neg h0, ht]

/-- The counter value `a + (j + M - a % M) % M` selects shard `j`. -/
lemma cntMod_hit (M j a : Nat) (hM : 0 < M) (hj : j < M) :
    (a + (j + M - a % M) % M) % M = j := by
  obtain ⟨q, hq⟩ : ∃ q, M * q + a % M = a := ⟨a / M, Nat.div_add_mod a M⟩
  have hr : a % M < M := Nat.mod_lt a hM
  rw [Nat.add_mod_mod]
  rw [show a + (j + M - a % M) = M * q + (j + M) from by omega]
  rw [Nat.mul_add_mod, Nat.add_mod_right]
  exact Nat.mod_eq_of_lt hj

/-- Any window of exactly `M` consecutive counter values hits shard `j`
exactly once. -/
lemma cntMod_block (M j : Nat) (hM : 0 < M) (hj : j < M) (a : Nat) :
    cntMod M j a M = 1 := by
  have hrM : (j + M - a % M) % M < M := Nat.mod_lt _ hM
  have hhit : (a + (j + M - a % M) % M) % M = j := cntMod_hit M j a hM hj
  set r := (j + M - a % M) % M with hrdef
  have hsplit : cntMod M j a M = cntMod M j a r + cntMod M j (a + r) (M - r) := by
    rw [← cntMod_split]
    congr 1
    omega
  have hfront : cntMod M j a r = 0 := by
    apply cntMod_eq_zero
    intro i hi hcontra
    have h1 : a + i ≡ a + r [MOD M] := by
      unfold Nat.ModEq
      rw [hcontra, hhit]
    have h2 : i % M = r % M := Nat.ModEq.add_left_cancel' a h1
    rw [Nat.mod_eq_of_lt (by omega), Nat.mod_eq_of_lt hrM] at h2
    omega
  have hback : cntMod M j (a + r) (M - r) = 1 := by
    rw [show M - r = (M - r - 1) + 1 from by omega, cntMod_succ, if_pos hhit]
    have hz : cntMod M j (a + r + 1) (M - r - 1) = 0 := by
      apply cntMod_eq_zero
      intro i hi hcontra
      have h1 : (a + r) + 0 ≡ (a + r) + (1 + i) [MOD M] := by
        unfold Nat.ModEq
        rw [Nat.add_zero, hhit, show a + r + (1 + i) = a + r + 1 + i from by omega,
          hcontra]
      have h2 : 0 % M = (1 + i) % M := Nat.ModEq.add_left_cancel' (a + r) h1
      rw [Nat.zero_mod, Nat.mod_eq_of_lt (by omega)] at h2
      omega
    rw [hz]
  rw [hsplit, hfront, hback]

/-- A window of at most `M` consecutive counter values hits shard `j` at
most once. -/
lemma cntMod_le_one (M j : Nat) (hM : 0 < M) (hj : j < M) (a K : Nat)
    (hK : K ≤ M) : cntMod M j a K ≤ 1 := by
  have hblock := cntMod_block M j hM hj a
  have hsplit : cntMod M j a M = cntMod M j a K + cntMod M j (a + K) (M - K) := by
    rw [← cntMod_split]
    congr 1
    omega
  omega

/-- Hit count over `M * q + s` consecutive counter values: `q` full rounds
plus the remainder window. -/
lemma cntMod_mul_add (M j : Nat) (hM : 0 < M) (hj : j < M) :
    ∀ q a s : Nat, cntMod M j a (M * q + s) = q + cntMod M j a s := by
  intro q
  induction q with
  | zero => intro a s; simp
  | succ n ih =>
    intro a s
    rw [show M * (n + 1) + s = M + (M * n + s) from by
        rw [Nat.mul_succ]; omega,
      cntMod_split M j M a (M * n + s), cntMod_block M j hM hj a,
      ih (a + M) s]
    have hc : cntMod M j (a + M) s = cntMod M j a s := by
      apply cntMod_congr
      unfold Nat.ModEq
      rw [Nat.add_mod_right]
    rw [hc]
    omega

/-- Every shard's hit count over any window of `K` consecutive counter
values is either `⌊K/M⌋` or `⌈K/M⌉`. -/
lemma cntMod_floor_ceil (M j a K : Nat) (hM : 0 < M) (hj : j < M) :
    cntMod M j a K = K / M ∨ cntMod M j a K = (K + M - 1) / M := by
  have hdm : M * (K / M) + K % M = K := Nat.div_add_mod K M
  have hs : K % M < M := Nat.mod_lt K hM
  have hmain : cntMod M j a K = K / M + cntMod M j a (K % M) := by
    conv_lhs => rw [← hdm]
    exact cntMod_mul_add M j hM hj (K / M) a (K % M)
  have hle : cntMod M j a (K % M) ≤ 1 := cntMod_le_one M j hM hj a (K % M) (by omega)
  have hcase : cntMod M j a (K % M) = 0 ∨ cntMod M j a (K % M) = 1 := by omega
  rcases hcase with h0 | h1
  · left
    rw [hmain, h0]
    omega
  · right
    have hs0 : 0 < K % M := by
      by_contra hz
      have hzero : K % M = 0 := by omega
      rw [hzero, cntMod_zero] at h1
      omega
    have hK1 : 1 ≤ K := by
      by_contra hz
      have : K = 0 := by omega
      subst this
      rw [Nat.zero_mod] at hs0
      omega
    have hndvd : ¬ M ∣ K := by
      intro hdvd
      have hz := Nat.mod_eq_zero_of_dvd hdvd
      omega
    have hstep : K / M = (K - 1) / M := by
      have h := Nat.succ_div_of_not_dvd (a := K - 1) (b := M)
        (by rw [show K - 1 + 1 = K from by omega]; exact hndvd)
      rw [show K - 1 + 1 = K from by omega] at h
      exact h
    have hceil : (K + M - 1) / M = K / M + 1 := by
      rw [show K + M - 1 = (K - 1) + M from by omega,
        Nat.add_div_right _ hM, ← hstep]
    rw [hmain, h1, hceil]

/-! ### Round-robin distribution of pushes over the shards -/

/-- Per-shard effect of a sequence of pushes: while enabled with a
power-of-two queue count `2^m` (`m ≤ 32`) and mask `2^m - 1`, `pushAll`
succeeds and each shard `j` gains exactly the number of counter values in
the pushed window that select it modulo `2^m`. -/
lemma Flusher.pushAll_lengths (m : Nat) (hm : m ≤ 32) (events : List Incoming) :
    ∀ job : Flusher, job.enabled = true →
      job.queues.length = 2 ^ m →
      job.queueMask = 2 ^ m - 1 →
      ∃ job', job.pushAll events = some job' ∧
        job'.queues.length = 2 ^ m ∧
        ∀ j, j < 2 ^ m →
          ∃ n, (job.queues.map Queue.Length)[j]? = some n ∧
            (job'.queues.map Queue.Length)[j]? =
              some (n + cntMod (2 ^ m) j (job.queueIndex + 1) events.length) := by
  induction events with
  | nil =>
    intro job hen hlen hmask
    refine ⟨job, rfl, hlen, ?_⟩
    intro j hj
    have hjlen : j < (job.queues.map Queue.Length).length := by
      rw [List.length_map, hlen]
      exact hj
    exact ⟨(job.queues.map Queue.Length).get ⟨j, hjlen⟩,
      List.getElem?_eq_getElem hjlen,
      by rw [List.getElem?_eq_getElem hjlen]; rfl⟩
  | cons e es ih =>
    intro job hen hlen hmask
    have hmlt : job.queueMask < job.queues.length := by
      rw [hmask, hlen]
      exact Nat.sub_lt (Nat.two_pow_pos m) one_pos
    obtain ⟨q, hq, hpush⟩ := Flusher.push_enabled_eq job e hen hmlt
    have hidx : ((job.queueIndex + 1) % UINT32_SIZE) &&& job.queueMask =
        (job.queueIndex + 1) % 2 ^ m := by
      rw [hmask, Nat.and_pow_two_sub_one_eq_mod, UINT32_SIZE]
      exact Nat.mod_mod_of_dvd _ (Nat.pow_dvd_pow 2 hm)
    set idx := (job.queueIndex + 1) % 2 ^ m with hidxdef
    have hidxlt : idx < 2 ^ m := Nat.mod_lt _ (Nat.two_pow_pos m)
    rw [hidx] at hq hpush
    set job1 : Flusher :=
      { job with
          queueIndex := (job.queueIndex + 1) % UINT32_SIZE
          queues := job.queues.set idx (q.Push e).1 } with hjob1
    have hlen1 : job1.queues.length = 2 ^ m := by
      simp [hjob1, hlen]
    have hmask1 : job1.queueMask = 2 ^ m - 1 := hmask
    obtain ⟨job', hall, hlen', hcnt⟩ := ih job1 hen hlen1 hmask1
    refine ⟨job', by simp only [Flusher.pushAll, hpush]; exact hall, hlen', ?_⟩
    intro j hj
    obtain ⟨n1, hn1, hn1'⟩ := hcnt j hj
    have hmap1 : job1.queues.map Queue.Length =
        (job.queues.map Queue.Length).set idx ((q.Push e).1.Length) := by
      simp [hjob1, List.map_set]
    have hjlen : j < (job.queues.map Queue.Length).length := by
      rw [List.length_map, hlen]
      exact hj
    have hcongr : cntMod (2 ^ m) j (job1.queueIndex + 1) es.length =
        cntMod (2 ^ m) j (job.queueIndex + 2) es.length := by
      apply cntMod_congr
      have h1 : (job.queueIndex + 1) % UINT32_SIZE ≡ job.queueIndex + 1
          [MOD 2 ^ m] :=
        (Nat.mod_modEq (job.queueIndex + 1) UINT32_SIZE).of_dvd
          (Nat.pow_dvd_pow 2 hm)
      have h2 := h1.add_right 1
      simpa [hjob1, Nat.add_assoc] using h2
    have hhead : cntMod (2 ^ m) j (job.queueIndex + 1) (es.length + 1) =
        (if (job.queueIndex + 1) % 2 ^ m = j then 1 else 0) +
          cntMod (2 ^ m) j (job.queueIndex + 2) es.length := by
      rw [cntMod_succ]
    by_cases hje : j = idx
    · have hqlen : (job.queues.map Queue.Length)[j]? = some q.Length := by
        rw [hje, List.getElem?_map, hq]
        rfl
      refine ⟨q.Length, hqlen, ?_⟩
      have hset : (List.map Queue.Length job1.queues)[j]? =
          some ((q.Push e).1.Length) := by
        rw [hmap1, hje]
        exact List.getElem?_set_self (by rw [List.length_map, hlen]; exact hidxlt)
      rw [hset] at hn1
      have hplen : (q.Push e).1.Length = q.Length + 1 := by
        simp [Queue.Push, Queue.Length]
      rw [hplen] at hn1
      have hn1eq : n1 = q.Length + 1 := (Option.some.inj hn1).symm
      rw [hn1', hn1eq, hcongr, List.length_cons, hhead,
        if_pos (show (job.queueIndex + 1) % 2 ^ m = j by rw [← hidxdef]; exact hje.symm)]
      congr 1
      omega
    · have hbase : (job.queues.map Queue.Length)[j]? = some n1 := by
        rw [hmap1] at hn1
        rwa [List.getElem?_set_ne (fun h => hje h.symm)] at hn1
      refine ⟨n1, hbase, ?_⟩
      have hneg : ¬ ((job.queueIndex + 1) % 2 ^ m = j) := by
        intro h
        apply hje
        rw [hidxdef, ← h]
      rw [hn1', hcongr, List.length_cons, hhead, if_neg hneg]
      congr 1
      omega

/-- Claim C7: round-robin distribution — pushing `K` events through
`Flusher.Push` (increment the shared counter, mask with `M - 1`) into `M =
2^m` shards with no interleaved drains, starting from any counter value
(wraparound included) and any event contents, leaves every shard holding
exactly `⌊K/M⌋` or `⌈K/M⌉` events. -/
theorem c7_round_robin_distribution (m c0 : Nat) (hm : m ≤ 32)
    (events : List Incoming) :
    ∃ job',
      ({ enabled := true, queueIndex := c0, queueMask := 2 ^ m - 1,
         queues := NewQueues (2 ^ m) } : Flusher).pushAll events = some job' ∧
      ∀ j, j < 2 ^ m →
        (job'.queues.map Queue.Length)[j]? = some (events.length / 2 ^ m) ∨
        (job'.queues.map Queue.Length)[j]? =
          some ((events.length + 2 ^ m - 1) / 2 ^ m) := by
  obtain ⟨job', hall, hlen', hcnt⟩ :=
    Flusher.pushAll_lengths m hm events
      { enabled := true, queueIndex := c0, queueMask := 2 ^ m - 1,
        queues := NewQueues (2 ^ m) }
      rfl (by simp [NewQueues]) rfl
  refine ⟨job', hall, ?_⟩
  intro j hj
  obtain ⟨n, hn, hn'⟩ := hcnt j hj
  have hzero : ((NewQueues (2 ^ m)).map Queue.Length)[j]? = some 0 := by
    rw [NewQueues, List.map_replicate]
    exact List.getElem?_replicate_of_lt hj
  rw [hzero] at hn
  have hn0 : n = 0 := by
    have := (Option.some.injEq _ _).mp hn
    omega
  rw [hn0] at hn'
  rcases cntMod_floor_ceil (2 ^ m) j (c0 + 1) events.length
      (Nat.two_pow_pos m) hj with hfloor | hceil
  · left
    rw [hn', hfloor]
    simp
  · right
    rw [hn', hceil]
    simp

/-- Closed witness for `c7_round_robin_distribution`: 4 shards, counter
starting at 3, five pushed events. -/
theorem c7_round_robin_distribution_witness :
    2 ≤ 32 ∧
    ∃ job',
      ({ enabled := true, queueIndex := 3, queueMask := 2 ^ 2 - 1,
         queues := NewQueues (2 ^ 2) } : Flusher).pushAll
          (List.replicate 5 default) = some job' ∧
      ∀ j, j < 2 ^ 2 →
        (job'.queues.map Queue.Length)[j]? =
          some ((List.replicate 5 (default : Incoming)).length / 2 ^ 2) ∨
        (job'.queues.map Queue.Length)[j]? =
          some (((List.replicate 5 (default : Incoming)).length + 2 ^ 2 - 1) / 2 ^ 2) :=
  ⟨by omega, c7_round_robin_distribution 2 3 (by omega) (List.replicate 5 default)⟩

end Microservice
